import Mathlib

/-!
Verification of the crosslink module-dependency rewriter.

The crosslink tool walks a root directory of Go module manifests, builds the
intra-repository dependency graph (with transitive closure), synthesizes
relative-path replace directives, merges them into each manifest subject to
the Overwrite / Prune / ExcludedPaths / SkippedPaths configuration, and
writes the manifests back.

The repository sources provided contain only the test file for this tool;
the implementation itself is modelled here from the specification, as a
shallow embedding over pure data: a repository is the finite set of module
manifests below the root, paths are lists of segments, and a run is a pure
function from repository and configuration to repository (or an error).
-/

namespace Crosslink

/-- A require entry of a module manifest: a required module identity and
its semantic version. -/
structure Require where
  path : String
  version : String
deriving DecidableEq, Repr

/-- A replace (override) directive of a manifest: the target module identity
and the replacement (relative filesystem) path. -/
structure Replace where
  oldPath : String
  newPath : String
deriving DecidableEq, Repr

/-- Modelled from the spec: a parsed module manifest (the crosslink
implementation is not among the provided sources, only its tests). It holds
the module identity line, the toolchain-version line (standing for all
unrelated content that must be preserved verbatim), the require entries and
the replace (override) entries. -/
structure ModFile where
  modPath : String
  goVersion : String
  requires : List Require
  replaces : List Replace
deriving DecidableEq, Repr

/-- Modelled from the spec: a located module of the repository — its
directory (as path segments relative to the configured root; the root
module has directory []) together with its parsed manifest. -/
structure ModuleInfo where
  dir : List String
  modFile : ModFile
deriving DecidableEq, Repr

/-- Modelled from the spec: the configuration surface of a run. RootPath is
abstracted away (the Repo value below is the tree at the root); Verbose only
controls logging and has no effect on outputs. -/
structure RunConfig where
  overwrite : Bool := false
  prune : Bool := false
  excludedPaths : List String := []
  skippedPaths : List String := []
  verbose : Bool := false
deriving DecidableEq, Repr

/-- The default run configuration: Overwrite and Prune disabled, no
excluded identities, no skipped manifest paths. -/
def DefaultRunConfig : RunConfig := {}

/-- Modelled from the spec: the state of the filesystem tree at the root, as
seen by one run. modules are the manifests the locator discovers below the
root; diskDirs records further identities whose checkout directory exists on
disk relative to the root without being a located repository module (used by
the excluded-but-directly-required rule). -/
structure Repo where
  modules : List ModuleInfo
  diskDirs : List (String × List String)
deriving DecidableEq, Repr

/-- The module identities present in the repository. -/
def Repo.identities (repo : Repo) : List String :=
  repo.modules.map (fun m => m.modFile.modPath)

/-- The directory of a located repository module, by identity. -/
def Repo.dirOf (repo : Repo) (p : String) : Option (List String) :=
  (repo.modules.find? (fun m => m.modFile.modPath = p)).map (fun m => m.dir)

/-- The require entries of a located repository module, by identity (empty
when the identity is not a located module). -/
def Repo.requiresOf (repo : Repo) (p : String) : List Require :=
  match repo.modules.find? (fun m => m.modFile.modPath = p) with
  | some m => m.modFile.requires
  | none => []

/-- The on-disk directory of an identity: a located module's directory, or
an extra checkout directory recorded in diskDirs. -/
def Repo.onDiskDir (repo : Repo) (p : String) : Option (List String) :=
  match repo.dirOf p with
  | some d => some d
  | none => repo.diskDirs.lookup p

/-- The manifest path of a module directory, relative to the root. -/
def manifestPath (dir : List String) : String :=
  String.intercalate "/" (dir ++ ["go.mod"])

/-- Drop the common leading segments of two directory paths. -/
def dropCommon : List String → List String → List String × List String
  | a :: as, b :: bs => if a = b then dropCommon as bs else (a :: as, b :: bs)
  | as, bs => (as, bs)

/-- Modelled from the spec: the relative filesystem path from one module
directory to another, rendered the way the synthesizer emits it: a path that
stays below the source directory is prefixed with a dot segment, and each
remaining source segment contributes one parent-directory step. -/
def relPath (src dst : List String) : String :=
  let p := dropCommon src dst
  if p.1.isEmpty then
    "./" ++ String.intercalate "/" p.2
  else
    String.join (p.1.map (fun _ => "../")) ++ String.intercalate "/" p.2

/-- Modelled from the spec: the direct intra-repository dependencies of the
module with the given identity. An edge exists only if the required identity
is also a key of the module mapping, and no edge is created into or out of
an excluded identity. -/
def directDeps (repo : Repo) (cfg : RunConfig) (src : String) : List String :=
  if cfg.excludedPaths.contains src then []
  else
    ((repo.requiresOf src).map (fun r => r.path)).filter
      (fun p => repo.identities.contains p && !cfg.excludedPaths.contains p)

/-- One step of cycle-safe closure computation: extend the visited set by
every direct dependency of a visited module, deduplicating (the visited set
of the traversal). -/
def closureStep (repo : Repo) (cfg : RunConfig) (s : List String) : List String :=
  (s ++ s.flatMap (directDeps repo cfg)).dedup

/-- Modelled from the spec: the set of modules reachable from a starting
identity by repeated edge-following, computed by iterating the closure step
as many times as there are modules (a visited-set traversal, so dependency
cycles terminate). The starting module itself is a member, and may also be
re-reached through a cycle. -/
def reachable (repo : Repo) (cfg : RunConfig) (start : String) : List String :=
  (closureStep repo cfg)^[repo.modules.length] [start]

/-- Whether a module directory's manifest path is in the skip set. -/
def isSkippedDir (cfg : RunConfig) (dir : List String) : Bool :=
  cfg.skippedPaths.contains (manifestPath dir)

/-- Whether an identity is an admissible synthesis target for a module:
distinct from the module itself, a located repository module, and not
skipped. -/
def targetOk (repo : Repo) (cfg : RunConfig) (selfPath p : String) : Bool :=
  p != selfPath &&
    match repo.dirOf p with
    | some d => !isSkippedDir cfg d
    | none => false

/-- Lexicographic comparison of character lists by code point. -/
def charListLe : List Char → List Char → Bool
  | [], _ => true
  | _ :: _, [] => false
  | a :: as, b :: bs =>
    if a.toNat < b.toNat then true
    else if b.toNat < a.toNat then false
    else charListLe as bs

/-- Lexicographic order on strings (by code point), used to emit directives
sorted by target identity. -/
def strLe (a b : String) : Bool := charListLe a.data b.data

/-- Insert a string into a sorted list, keeping it sorted. -/
def insertSorted (x : String) : List String → List String
  | [] => [x]
  | y :: ys => if strLe x y then x :: y :: ys else y :: insertSorted x ys

/-- Sort a list of strings (insertion sort). -/
def sortStrings : List String → List String
  | [] => []
  | x :: xs => insertSorted x (sortStrings xs)

/-- Modelled from the spec: the synthesis targets of a module — every module
of its transitive-closure dependency set other than itself that is not
skipped and not excluded — deduplicated and sorted by identity so that
directives are emitted in a stable, deterministic order. -/
def synthTargets (repo : Repo) (cfg : RunConfig) (m : ModuleInfo) : List String :=
  sortStrings (((reachable repo cfg m.modFile.modPath).filter
    (targetOk repo cfg m.modFile.modPath)).dedup)

/-- Modelled from the spec: the synthesized override directives of a module,
one per synthesis target, mapping the target identity to the relative
filesystem path from the module's directory to the target's directory. -/
def synthDirectives (repo : Repo) (cfg : RunConfig) (m : ModuleInfo) : List Replace :=
  (synthTargets repo cfg m).map
    (fun p => ⟨p, relPath m.dir ((repo.dirOf p).getD [])⟩)

/-- Modelled from the spec: the excluded identities that are directly
required by a module and whose directory exists on disk relative to the
root; these keep a local-path override even though they take no part in the
graph. -/
def excludedKeepTargets (repo : Repo) (cfg : RunConfig) (m : ModuleInfo) : List String :=
  ((m.modFile.requires.map (fun r => r.path)).filter
    (fun p => cfg.excludedPaths.contains p && (repo.onDiskDir p).isSome)).dedup

/-- Overwrite the recorded path of an override when its target identity
matches the directive's target, and leave it unchanged otherwise. -/
def setNew (d r : Replace) : Replace :=
  if r.oldPath = d.oldPath then { r with newPath := d.newPath } else r

/-- Modelled from the spec: merge one synthesized directive into a replace
list. If an override for the same identity already exists, it is left
untouched when overwrite-policy is disabled and its path is replaced with
the newly computed path when it is enabled; if none exists, the directive is
appended. -/
def applyDirective (cfg : RunConfig) (rs : List Replace) (d : Replace) : List Replace :=
  if rs.any (fun r => r.oldPath = d.oldPath) then
    if cfg.overwrite then rs.map (setNew d) else rs
  else rs ++ [d]

/-- Modelled from the spec: ensure an excluded-but-directly-required on-disk
identity has a local-path override. An existing override for it is never
rewritten (exclusion removes it from graph participation, so the overwrite
policy does not apply); if none exists, a local-path override is appended. -/
def applyExcluded (repo : Repo) (m : ModuleInfo)
    (rs : List Replace) (p : String) : List Replace :=
  if rs.any (fun r => r.oldPath = p) then rs
  else rs ++ [⟨p, relPath m.dir ((repo.onDiskDir p).getD [])⟩]

/-- Whether an override target is justified by a direct or transitive
dependency edge of the module in the freshly rebuilt graph. -/
def justified (repo : Repo) (cfg : RunConfig) (m : ModuleInfo) (p : String) : Bool :=
  p != m.modFile.modPath && (reachable repo cfg m.modFile.modPath).contains p

/-- Modelled from the spec: whether the pruner keeps an override directive —
either a dependency edge justifies it, or its target is an excluded identity
that the module directly requires and that exists on disk. -/
def keptAfterPrune (repo : Repo) (cfg : RunConfig) (m : ModuleInfo) (r : Replace) : Bool :=
  justified repo cfg m r.oldPath || (excludedKeepTargets repo cfg m).contains r.oldPath

/-- Modelled from the spec: the rewrite of one replace list in a crosslink
run: the synthesized directives are merged in (sorted by target identity),
the excluded-but-directly-required rule is applied, and, when pruning is
requested, unjustified directives are removed as a post-pass. -/
def mergeReplaces (repo : Repo) (cfg : RunConfig) (m : ModuleInfo)
    (rs : List Replace) : List Replace :=
  let merged := (excludedKeepTargets repo cfg m).foldl (applyExcluded repo m)
    ((synthDirectives repo cfg m).foldl (applyDirective cfg) rs)
  if cfg.prune then merged.filter (keptAfterPrune repo cfg m) else merged

/-- Modelled from the spec: process one module's manifest in a crosslink
run: a skipped manifest is left byte-for-byte unchanged; otherwise its
replace list is rewritten and all other content is preserved verbatim. -/
def processModule (repo : Repo) (cfg : RunConfig) (m : ModuleInfo) : ModFile :=
  if isSkippedDir cfg m.dir then m.modFile
  else { m.modFile with replaces := mergeReplaces repo cfg m m.modFile.replaces }

/-- Modelled from the spec: prune one module's manifest without synthesis: a
skipped manifest is exempt; otherwise every override directive kept by no
justification rule is removed, and no directive is invented. -/
def pruneModule (repo : Repo) (cfg : RunConfig) (m : ModuleInfo) : ModFile :=
  if isSkippedDir cfg m.dir then m.modFile
  else { m.modFile with replaces := m.modFile.replaces.filter (keptAfterPrune repo cfg m) }

/-- The error taxonomy of a run that the claims exercise: the locator fails
when no manifest exists at the root. -/
inductive CrosslinkError where
  | rootNotFound
deriving DecidableEq, Repr

/-- Whether a manifest exists at the root of the repository tree. -/
def Repo.hasRootManifest (repo : Repo) : Bool :=
  repo.modules.any (fun m => m.dir.isEmpty)

/-- Rewrite every module's manifest of a repository in one pass, each
against the state the run started from. -/
def rewriteRepo (repo : Repo) (cfg : RunConfig) : Repo :=
  { repo with
    modules := repo.modules.map (fun m => { m with modFile := processModule repo cfg m }) }

/-- Modelled from the spec: one crosslink run. It fails when no manifest
exists at the root; otherwise every module's manifest is processed (graph
build, synthesis, merge, optional prune) against the state the run started
from, and the rewritten repository is returned. -/
def Crosslink (repo : Repo) (cfg : RunConfig) : Except CrosslinkError Repo :=
  if repo.hasRootManifest then Except.ok (rewriteRepo repo cfg)
  else Except.error CrosslinkError.rootNotFound

/-- Modelled from the spec: the standalone prune operation. It fails when no
manifest exists at the root; otherwise it removes unjustified override
directives from every non-skipped manifest without synthesizing any. -/
def Prune (repo : Repo) (cfg : RunConfig) : Except CrosslinkError Repo :=
  if repo.hasRootManifest then
    Except.ok { repo with
      modules := repo.modules.map (fun m => { m with modFile := pruneModule repo cfg m }) }
  else Except.error CrosslinkError.rootNotFound

/-- The replace list of the module at a given directory in a run result
(empty if the run failed or no module lives there). -/
def replacesAt (r : Except CrosslinkError Repo) (dir : List String) : List Replace :=
  match r with
  | Except.ok repo =>
    match repo.modules.find? (fun m => m.dir = dir) with
    | some m => m.modFile.replaces
    | none => []
  | Except.error _ => []

/-! Basic facts about the embedded operations. -/

theorem contains_iff_mem {α} [BEq α] [LawfulBEq α] {l : List α} {a : α} :
    l.contains a = true ↔ a ∈ l := List.elem_iff

theorem insertSorted_perm (x : String) : ∀ l : List String,
    (insertSorted x l).Perm (x :: l)
  | [] => List.Perm.refl _
  | y :: ys => by
    unfold insertSorted
    split
    · exact List.Perm.refl _
    · exact ((insertSorted_perm x ys).cons y).trans (List.Perm.swap x y ys)

theorem sortStrings_perm : ∀ l : List String, (sortStrings l).Perm l
  | [] => List.Perm.refl _
  | x :: xs => (insertSorted_perm x (sortStrings xs)).trans ((sortStrings_perm xs).cons x)

theorem mem_sortStrings {a : String} {l : List String} : a ∈ sortStrings l ↔ a ∈ l :=
  (sortStrings_perm l).mem_iff

theorem nodup_sortStrings {l : List String} (h : l.Nodup) : (sortStrings l).Nodup :=
  ((sortStrings_perm l).nodup_iff).mpr h

theorem charListLe_total : ∀ (a b : List Char),
    charListLe a b = true ∨ charListLe b a = true
  | [], _ => Or.inl rfl
  | _ :: _, [] => Or.inr rfl
  | a :: as, b :: bs => by
    unfold charListLe
    by_cases h1 : a.toNat < b.toNat
    · exact Or.inl (by rw [if_pos h1])
    · by_cases h2 : b.toNat < a.toNat
      · exact Or.inr (by rw [if_pos h2])
      · rw [if_neg h1, if_neg h2, if_neg h2, if_neg h1]
        exact charListLe_total as bs

theorem charListLe_trans : ∀ (a b c : List Char), charListLe a b = true →
    charListLe b c = true → charListLe a c = true
  | [], _, _, _, _ => rfl
  | _ :: _, [], _, hab, _ => absurd hab Bool.false_ne_true
  | _ :: _, _ :: _, [], _, hbc => absurd hbc Bool.false_ne_true
  | a :: as, b :: bs, c :: cs, hab, hbc => by
    unfold charListLe at hab hbc ⊢
    by_cases h1 : a.toNat < b.toNat
    · by_cases h2 : b.toNat < c.toNat
      · rw [if_pos (Nat.lt_trans h1 h2)]
      · rw [if_neg h2] at hbc
        by_cases h3 : c.toNat < b.toNat
        · rw [if_pos h3] at hbc
          exact absurd hbc Bool.false_ne_true
        · have heq : b.toNat = c.toNat :=
            Nat.le_antisymm (Nat.not_lt.mp h3) (Nat.not_lt.mp h2)
          rw [if_pos (heq ▸ h1)]
    · rw [if_neg h1] at hab
      by_cases h1b : b.toNat < a.toNat
      · rw [if_pos h1b] at hab
        exact absurd hab Bool.false_ne_true
      · have heq : a.toNat = b.toNat :=
          Nat.le_antisymm (Nat.not_lt.mp h1b) (Nat.not_lt.mp h1)
        rw [if_neg h1b] at hab
        by_cases h2 : b.toNat < c.toNat
        · rw [if_pos (heq ▸ h2)]
        · rw [if_neg h2] at hbc
          by_cases h3 : c.toNat < b.toNat
          · rw [if_pos h3] at hbc
            exact absurd hbc Bool.false_ne_true
          · rw [if_neg h3] at hbc
            rw [if_neg (heq ▸ h2), if_neg (fun hc => h3 (heq ▸ hc))]
            exact charListLe_trans as bs cs hab hbc

theorem strLe_total (a b : String) : strLe a b = true ∨ strLe b a = true :=
  charListLe_total a.data b.data

theorem strLe_trans {a b c : String} (hab : strLe a b = true) (hbc : strLe b c = true) :
    strLe a c = true :=
  charListLe_trans a.data b.data c.data hab hbc

theorem pairwise_insertSorted (x : String) : ∀ (l : List String),
    l.Pairwise (fun a b => strLe a b = true) →
    (insertSorted x l).Pairwise (fun a b => strLe a b = true)
  | [], _ => List.pairwise_singleton _ x
  | y :: ys, h => by
    unfold insertSorted
    rcases List.pairwise_cons.mp h with ⟨hy, hys⟩
    split
    · next hxy =>
      refine List.pairwise_cons.mpr ⟨fun b hb => ?_, h⟩
      rcases List.mem_cons.mp hb with rfl | hb
      · exact hxy
      · exact strLe_trans hxy (hy b hb)
    · next hxy =>
      have hx : strLe y x = true := (strLe_total x y).resolve_left hxy
      refine List.pairwise_cons.mpr ⟨fun b hb => ?_, pairwise_insertSorted x ys hys⟩
      rcases List.mem_cons.mp ((insertSorted_perm x ys).mem_iff.mp hb) with rfl | hb
      · exact hx
      · exact hy b hb

theorem pairwise_sortStrings : ∀ l : List String,
    (sortStrings l).Pairwise (fun a b => strLe a b = true)
  | [] => List.Pairwise.nil
  | x :: xs => pairwise_insertSorted x (sortStrings xs) (pairwise_sortStrings xs)

/-! Facts about merging directives into a replace list. -/

theorem oldPath_setNew (d r : Replace) : (setNew d r).oldPath = r.oldPath := by
  unfold setNew
  split <;> rfl

theorem setNew_eq_self {d r : Replace} (h : r.oldPath = d.oldPath → r.newPath = d.newPath) :
    setNew d r = r := by
  unfold setNew
  by_cases hcase : r.oldPath = d.oldPath
  · rw [if_pos hcase, ← h hcase]
  · rw [if_neg hcase]

theorem setNew_of_eq {d r : Replace} (h : r.oldPath = d.oldPath) :
    setNew d r = ⟨d.oldPath, d.newPath⟩ := by
  unfold setNew
  rw [if_pos h]
  show (⟨r.oldPath, d.newPath⟩ : Replace) = ⟨d.oldPath, d.newPath⟩
  rw [h]

theorem newPath_setNew {d r : Replace} (h : (setNew d r).oldPath = d.oldPath) :
    (setNew d r).newPath = d.newPath := by
  by_cases hcase : r.oldPath = d.oldPath
  · rw [setNew_of_eq hcase]
  · rw [oldPath_setNew] at h
    exact absurd h hcase

theorem hasOld_applyDirective {cfg : RunConfig} {rs : List Replace} {p : String}
    (d : Replace) (h : ∃ r ∈ rs, r.oldPath = p) :
    ∃ r ∈ applyDirective cfg rs d, r.oldPath = p := by
  obtain ⟨r, hr, hrp⟩ := h
  unfold applyDirective
  split
  · split
    · exact ⟨setNew d r, List.mem_map_of_mem _ hr, (oldPath_setNew d r).trans hrp⟩
    · exact ⟨r, hr, hrp⟩
  · exact ⟨r, List.mem_append_left _ hr, hrp⟩

theorem hasOld_applyDirective_self (cfg : RunConfig) (rs : List Replace) (d : Replace) :
    ∃ r ∈ applyDirective cfg rs d, r.oldPath = d.oldPath := by
  by_cases hany : rs.any (fun r => r.oldPath = d.oldPath) = true
  · obtain ⟨r, hr, hrp⟩ := List.any_eq_true.mp hany
    exact hasOld_applyDirective d ⟨r, hr, of_decide_eq_true hrp⟩
  · unfold applyDirective
    rw [if_neg hany]
    exact ⟨d, List.mem_append_right _ (List.mem_singleton_self d), rfl⟩

theorem hasOld_foldl_applyDirective (cfg : RunConfig) (p : String) :
    ∀ (ds rs : List Replace), (∃ r ∈ rs, r.oldPath = p) →
      ∃ r ∈ ds.foldl (applyDirective cfg) rs, r.oldPath = p
  | [], _, h => h
  | d :: ds, _, h => hasOld_foldl_applyDirective cfg p ds _ (hasOld_applyDirective d h)

theorem hasOld_foldl_applyDirective_mem (cfg : RunConfig) :
    ∀ (ds rs : List Replace) (d : Replace), d ∈ ds →
      ∃ r ∈ ds.foldl (applyDirective cfg) rs, r.oldPath = d.oldPath
  | [], _, d, h => absurd h (List.not_mem_nil d)
  | d₁ :: ds, rs, d, h => by
    rcases List.mem_cons.mp h with rfl | h
    · exact hasOld_foldl_applyDirective cfg d.oldPath ds _ (hasOld_applyDirective_self cfg rs d)
    · exact hasOld_foldl_applyDirective_mem cfg ds _ d h

theorem hasOld_applyExcluded {repo : Repo} {m : ModuleInfo} {rs : List Replace} {p : String}
    (q : String) (h : ∃ r ∈ rs, r.oldPath = p) :
    ∃ r ∈ applyExcluded repo m rs q, r.oldPath = p := by
  obtain ⟨r, hr, hrp⟩ := h
  unfold applyExcluded
  split
  · exact ⟨r, hr, hrp⟩
  · exact ⟨r, List.mem_append_left _ hr, hrp⟩

theorem hasOld_applyExcluded_self (repo : Repo) (m : ModuleInfo) (rs : List Replace)
    (q : String) : ∃ r ∈ applyExcluded repo m rs q, r.oldPath = q := by
  by_cases hany : rs.any (fun r => r.oldPath = q) = true
  · obtain ⟨r, hr, hrp⟩ := List.any_eq_true.mp hany
    exact hasOld_applyExcluded q ⟨r, hr, of_decide_eq_true hrp⟩
  · unfold applyExcluded
    rw [if_neg hany]
    exact ⟨_, List.mem_append_right _ (List.mem_singleton_self _), rfl⟩

theorem hasOld_foldl_applyExcluded (repo : Repo) (m : ModuleInfo) (p : String) :
    ∀ (ps : List String) (rs : List Replace), (∃ r ∈ rs, r.oldPath = p) →
      ∃ r ∈ ps.foldl (applyExcluded repo m) rs, r.oldPath = p
  | [], _, h => h
  | q :: ps, _, h => hasOld_foldl_applyExcluded repo m p ps _ (hasOld_applyExcluded q h)

theorem hasOld_foldl_applyExcluded_mem (repo : Repo) (m : ModuleInfo) :
    ∀ (ps : List String) (rs : List Replace) (q : String), q ∈ ps →
      ∃ r ∈ ps.foldl (applyExcluded repo m) rs, r.oldPath = q
  | [], _, q, h => absurd h (List.not_mem_nil q)
  | q₁ :: ps, rs, q, h => by
    rcases List.mem_cons.mp h with rfl | h
    · exact hasOld_foldl_applyExcluded repo m q ps _ (hasOld_applyExcluded_self repo m rs q)
    · exact hasOld_foldl_applyExcluded_mem repo m ps _ q h

theorem mem_applyDirective_of_agree {cfg : RunConfig} {rs : List Replace} {e : Replace}
    (d : Replace) (he : e ∈ rs) (hag : d.oldPath = e.oldPath → d.newPath = e.newPath) :
    e ∈ applyDirective cfg rs d := by
  unfold applyDirective
  split
  · split
    · have himg : setNew d e = e := setNew_eq_self (fun hc => (hag hc.symm).symm)
      exact himg ▸ List.mem_map_of_mem _ he
    · exact he
  · exact List.mem_append_left _ he

theorem mem_foldl_applyDirective_of_agree (cfg : RunConfig) :
    ∀ (ds rs : List Replace) (e : Replace), e ∈ rs →
      (∀ d ∈ ds, d.oldPath = e.oldPath → d.newPath = e.newPath) →
      e ∈ ds.foldl (applyDirective cfg) rs
  | [], _, _, he, _ => he
  | d :: ds, _, e, he, hag =>
    mem_foldl_applyDirective_of_agree cfg ds _ e
      (mem_applyDirective_of_agree d he (hag d (List.mem_cons_self d ds)))
      (fun d₁ h₁ => hag d₁ (List.mem_cons_of_mem d h₁))

theorem foldl_applyDirective_append (cfg : RunConfig) (hov : cfg.overwrite = false) :
    ∀ (ds rs : List Replace), ∃ ext, ds.foldl (applyDirective cfg) rs = rs ++ ext ∧
      ∀ e ∈ ext, ∀ r ∈ rs, r.oldPath ≠ e.oldPath
  | [], rs => ⟨[], by simp, by simp⟩
  | d :: ds, rs => by
    by_cases hany : rs.any (fun r => r.oldPath = d.oldPath) = true
    · have hstep : applyDirective cfg rs d = rs := by
        unfold applyDirective
        rw [if_pos hany, hov]
        rfl
      have := foldl_applyDirective_append cfg hov ds rs
      simpa [List.foldl_cons, hstep] using this
    · have hstep : applyDirective cfg rs d = rs ++ [d] := by
        unfold applyDirective
        rw [if_neg hany]
      obtain ⟨ext, hext, hdisj⟩ := foldl_applyDirective_append cfg hov ds (rs ++ [d])
      refine ⟨d :: ext, ?_, ?_⟩
      · rw [List.foldl_cons, hstep, hext, List.append_assoc]
        rfl
      · intro e he r hr
        rcases List.mem_cons.mp he with rfl | he
        · intro hcontra
          exact hany (List.any_eq_true.mpr ⟨r, hr, decide_eq_true hcontra⟩)
        · exact hdisj e he r (List.mem_append_left _ hr)

theorem foldl_applyExcluded_append (repo : Repo) (m : ModuleInfo) :
    ∀ (ps : List String) (rs : List Replace),
      ∃ ext, ps.foldl (applyExcluded repo m) rs = rs ++ ext ∧
        ∀ e ∈ ext, ∀ r ∈ rs, r.oldPath ≠ e.oldPath
  | [], rs => ⟨[], by simp, by simp⟩
  | q :: ps, rs => by
    by_cases hany : rs.any (fun r => r.oldPath = q) = true
    · have hstep : applyExcluded repo m rs q = rs := by
        unfold applyExcluded
        rw [if_pos hany]
      have := foldl_applyExcluded_append repo m ps rs
      simpa [List.foldl_cons, hstep] using this
    · have hstep : applyExcluded repo m rs q =
          rs ++ [⟨q, relPath m.dir ((repo.onDiskDir q).getD [])⟩] := by
        unfold applyExcluded
        rw [if_neg hany]
      obtain ⟨ext, hext, hdisj⟩ := foldl_applyExcluded_append repo m ps
        (rs ++ [⟨q, relPath m.dir ((repo.onDiskDir q).getD [])⟩])
      refine ⟨⟨q, relPath m.dir ((repo.onDiskDir q).getD [])⟩ :: ext, ?_, ?_⟩
      · rw [List.foldl_cons, hstep, hext, List.append_assoc]
        rfl
      · intro e he r hr
        rcases List.mem_cons.mp he with rfl | he
        · intro hcontra
          exact hany (List.any_eq_true.mpr ⟨r, hr, decide_eq_true hcontra⟩)
        · exact hdisj e he r (List.mem_append_left _ hr)

theorem mem_foldl_applyExcluded (repo : Repo) (m : ModuleInfo) (ps : List String)
    (rs : List Replace) (e : Replace) (he : e ∈ rs) :
    e ∈ ps.foldl (applyExcluded repo m) rs := by
  obtain ⟨ext, hext, _⟩ := foldl_applyExcluded_append repo m ps rs
  rw [hext]
  exact List.mem_append_left _ he

theorem mem_applyDirective_self (cfg : RunConfig) (hov : cfg.overwrite = true)
    (rs : List Replace) (d : Replace) :
    (⟨d.oldPath, d.newPath⟩ : Replace) ∈ applyDirective cfg rs d := by
  by_cases hany : rs.any (fun r => r.oldPath = d.oldPath) = true
  · obtain ⟨r, hr, hrp⟩ := List.any_eq_true.mp hany
    have hrp : r.oldPath = d.oldPath := of_decide_eq_true hrp
    have hmem := List.mem_map_of_mem (setNew d) hr
    rw [setNew_of_eq hrp] at hmem
    unfold applyDirective
    rw [if_pos hany, hov]
    exact hmem
  · unfold applyDirective
    rw [if_neg hany]
    exact List.mem_append_right _ (List.mem_singleton_self _)

theorem mem_foldl_applyDirective_overwrite (cfg : RunConfig) (hov : cfg.overwrite = true) :
    ∀ (ds rs : List Replace) (d : Replace), d ∈ ds →
      (∀ d₁ ∈ ds, d₁.oldPath = d.oldPath → d₁.newPath = d.newPath) →
      (⟨d.oldPath, d.newPath⟩ : Replace) ∈ ds.foldl (applyDirective cfg) rs
  | [], _, d, hmem, _ => absurd hmem (List.not_mem_nil d)
  | d₁ :: ds, rs, d, hmem, hag => by
    rcases List.mem_cons.mp hmem with rfl | hmem
    · exact mem_foldl_applyDirective_of_agree cfg ds _ _
        (mem_applyDirective_self cfg hov rs d)
        (fun d₂ h₂ hp => hag d₂ (List.mem_cons_of_mem _ h₂) hp)
    · exact mem_foldl_applyDirective_overwrite cfg hov ds _ d hmem
        (fun d₂ h₂ => hag d₂ (List.mem_cons_of_mem _ h₂))

/-! Facts about the dependency graph and the synthesis targets. -/

theorem mem_directDeps_not_excluded {repo : Repo} {cfg : RunConfig} {s p : String}
    (h : p ∈ directDeps repo cfg s) : p ∉ cfg.excludedPaths := by
  unfold directDeps at h
  split at h
  · simp at h
  · have h2 := (List.mem_filter.mp h).2
    rw [Bool.and_eq_true, Bool.not_eq_true'] at h2
    intro hmem
    rw [← contains_iff_mem] at hmem
    rw [h2.2] at hmem
    exact Bool.false_ne_true hmem

theorem mem_iterate_closureStep {repo : Repo} {cfg : RunConfig} {s : String} :
    ∀ (n : Nat) (p : String), p ∈ (closureStep repo cfg)^[n] [s] →
      p = s ∨ p ∉ cfg.excludedPaths
  | 0, p, h => Or.inl (List.mem_singleton.mp h)
  | n + 1, p, h => by
    rw [Function.iterate_succ_apply'] at h
    unfold closureStep at h
    rw [List.mem_dedup] at h
    rcases List.mem_append.mp h with h | h
    · exact mem_iterate_closureStep n p h
    · obtain ⟨q, _, hpq⟩ := List.mem_flatMap.mp h
      exact Or.inr (mem_directDeps_not_excluded hpq)

theorem mem_reachable_excluded {repo : Repo} {cfg : RunConfig} {s p : String}
    (hp : p ∈ cfg.excludedPaths) (h : p ∈ reachable repo cfg s) : p = s := by
  unfold reachable at h
  rcases mem_iterate_closureStep _ p h with h | h
  · exact h
  · exact absurd hp h

theorem mem_synthTargets {repo : Repo} {cfg : RunConfig} {m : ModuleInfo} {p : String}
    (h : p ∈ synthTargets repo cfg m) :
    p ∈ reachable repo cfg m.modFile.modPath ∧ p ≠ m.modFile.modPath ∧
      ∃ d, repo.dirOf p = some d ∧ isSkippedDir cfg d = false := by
  unfold synthTargets at h
  rw [mem_sortStrings, List.mem_dedup, List.mem_filter] at h
  obtain ⟨hreach, hok⟩ := h
  unfold targetOk at hok
  rw [Bool.and_eq_true] at hok
  refine ⟨hreach, by simpa using hok.1, ?_⟩
  have hok2 := hok.2
  rcases hfind : repo.dirOf p with _ | d
  · rw [hfind] at hok2
    simp at hok2
  · rw [hfind] at hok2
    exact ⟨d, rfl, by simpa using hok2⟩

theorem justified_of_mem_synthTargets {repo : Repo} {cfg : RunConfig} {m : ModuleInfo}
    {p : String} (h : p ∈ synthTargets repo cfg m) : justified repo cfg m p = true := by
  obtain ⟨hreach, hne, _⟩ := mem_synthTargets h
  unfold justified
  rw [Bool.and_eq_true, bne_iff_ne]
  exact ⟨hne, contains_iff_mem.mpr hreach⟩

theorem not_excluded_of_mem_synthTargets {repo : Repo} {cfg : RunConfig} {m : ModuleInfo}
    {p : String} (h : p ∈ synthTargets repo cfg m) : p ∉ cfg.excludedPaths := by
  obtain ⟨hreach, hne, _⟩ := mem_synthTargets h
  intro hp
  exact hne (mem_reachable_excluded hp hreach)

theorem nodup_synthTargets (repo : Repo) (cfg : RunConfig) (m : ModuleInfo) :
    (synthTargets repo cfg m).Nodup :=
  nodup_sortStrings (List.nodup_dedup _)

theorem synthDirectives_map_oldPath (repo : Repo) (cfg : RunConfig) (m : ModuleInfo) :
    (synthDirectives repo cfg m).map (fun d => d.oldPath) = synthTargets repo cfg m := by
  unfold synthDirectives
  rw [List.map_map]
  exact List.map_id' _

theorem mem_synthDirectives {repo : Repo} {cfg : RunConfig} {m : ModuleInfo} {d : Replace}
    (h : d ∈ synthDirectives repo cfg m) :
    d.oldPath ∈ synthTargets repo cfg m ∧
      d.newPath = relPath m.dir ((repo.dirOf d.oldPath).getD []) := by
  unfold synthDirectives at h
  obtain ⟨p, hp, rfl⟩ := List.mem_map.mp h
  exact ⟨hp, rfl⟩

theorem mem_excludedKeepTargets {repo : Repo} {cfg : RunConfig} {m : ModuleInfo} {p : String} :
    p ∈ excludedKeepTargets repo cfg m ↔
      p ∈ m.modFile.requires.map (fun r => r.path) ∧ p ∈ cfg.excludedPaths ∧
        (repo.onDiskDir p).isSome = true := by
  unfold excludedKeepTargets
  rw [List.mem_dedup, List.mem_filter, Bool.and_eq_true, contains_iff_mem]

theorem kept_of_justified {repo : Repo} {cfg : RunConfig} {m : ModuleInfo} {r : Replace}
    (h : justified repo cfg m r.oldPath = true) : keptAfterPrune repo cfg m r = true := by
  unfold keptAfterPrune
  rw [h, Bool.true_or]

theorem kept_of_excludedKeep {repo : Repo} {cfg : RunConfig} {m : ModuleInfo} {r : Replace}
    (h : r.oldPath ∈ excludedKeepTargets repo cfg m) : keptAfterPrune repo cfg m r = true := by
  unfold keptAfterPrune
  rw [contains_iff_mem.mpr h, Bool.or_true]

theorem hasOld_filter_kept {repo : Repo} {cfg : RunConfig} {m : ModuleInfo}
    {rs : List Replace} {p : String} (h : ∃ r ∈ rs, r.oldPath = p)
    (hk : ∀ r : Replace, r.oldPath = p → keptAfterPrune repo cfg m r = true) :
    ∃ r ∈ rs.filter (keptAfterPrune repo cfg m), r.oldPath = p := by
  obtain ⟨r, hr, hrp⟩ := h
  exact ⟨r, List.mem_filter.mpr ⟨hr, hk r hrp⟩, hrp⟩

/-! Merging into an already-saturated replace list is the identity. -/

theorem applyDirective_eq_self {cfg : RunConfig} {rs : List Replace} {d : Replace}
    (hhas : ∃ r ∈ rs, r.oldPath = d.oldPath)
    (hval : cfg.overwrite = true → ∀ r ∈ rs, r.oldPath = d.oldPath → r.newPath = d.newPath) :
    applyDirective cfg rs d = rs := by
  have hany : rs.any (fun r => r.oldPath = d.oldPath) = true := by
    obtain ⟨r, hr, hrp⟩ := hhas
    exact List.any_eq_true.mpr ⟨r, hr, decide_eq_true hrp⟩
  unfold applyDirective
  rw [if_pos hany]
  cases hov : cfg.overwrite
  · rw [if_neg Bool.false_ne_true]
  · rw [if_pos rfl]
    have hpt : ∀ r ∈ rs, setNew d r = r := by
      intro r hr
      exact setNew_eq_self (fun hc => hval hov r hr hc)
    exact (List.map_congr_left hpt).trans (List.map_id' rs)

theorem foldl_applyDirective_eq_self (cfg : RunConfig) :
    ∀ (ds rs : List Replace),
      (∀ d ∈ ds, (∃ r ∈ rs, r.oldPath = d.oldPath) ∧
        (cfg.overwrite = true → ∀ r ∈ rs, r.oldPath = d.oldPath → r.newPath = d.newPath)) →
      ds.foldl (applyDirective cfg) rs = rs
  | [], _, _ => rfl
  | d :: ds, rs, h => by
    have hstep : applyDirective cfg rs d = rs :=
      applyDirective_eq_self (h d (List.mem_cons_self d ds)).1 (h d (List.mem_cons_self d ds)).2
    rw [List.foldl_cons, hstep]
    exact foldl_applyDirective_eq_self cfg ds rs (fun d₁ h₁ => h d₁ (List.mem_cons_of_mem d h₁))

theorem applyExcluded_eq_self {repo : Repo} {m : ModuleInfo} {rs : List Replace} {q : String}
    (hhas : ∃ r ∈ rs, r.oldPath = q) : applyExcluded repo m rs q = rs := by
  have hany : rs.any (fun r => r.oldPath = q) = true := by
    obtain ⟨r, hr, hrp⟩ := hhas
    exact List.any_eq_true.mpr ⟨r, hr, decide_eq_true hrp⟩
  unfold applyExcluded
  rw [if_pos hany]

theorem foldl_applyExcluded_eq_self (repo : Repo) (m : ModuleInfo) :
    ∀ (ps : List String) (rs : List Replace),
      (∀ q ∈ ps, ∃ r ∈ rs, r.oldPath = q) →
      ps.foldl (applyExcluded repo m) rs = rs
  | [], _, _ => rfl
  | q :: ps, rs, h => by
    rw [List.foldl_cons, applyExcluded_eq_self (h q (List.mem_cons_self q ps))]
    exact foldl_applyExcluded_eq_self repo m ps rs (fun q₁ h₁ => h q₁ (List.mem_cons_of_mem q h₁))

/-! After the overwrite pass, every override for a synthesized target
records the freshly computed path. -/

theorem valOld_applyDirective_self {cfg : RunConfig} (hov : cfg.overwrite = true)
    (rs : List Replace) (d : Replace) :
    ∀ r ∈ applyDirective cfg rs d, r.oldPath = d.oldPath → r.newPath = d.newPath := by
  intro r hr hrp
  unfold applyDirective at hr
  by_cases hany : rs.any (fun r => r.oldPath = d.oldPath) = true
  · rw [if_pos hany, if_pos hov] at hr
    obtain ⟨r₀, _, himg⟩ := List.mem_map.mp hr
    rw [← himg] at hrp ⊢
    exact newPath_setNew hrp
  · rw [if_neg hany] at hr
    rcases List.mem_append.mp hr with hr | hr
    · exact absurd (List.any_eq_true.mpr ⟨r, hr, decide_eq_true hrp⟩) hany
    · obtain rfl := List.mem_singleton.mp hr
      rfl

theorem valOld_applyDirective_ne {cfg : RunConfig} {rs : List Replace} {d₁ d : Replace}
    (hne : d₁.oldPath ≠ d.oldPath)
    (hval : ∀ r ∈ rs, r.oldPath = d.oldPath → r.newPath = d.newPath) :
    ∀ r ∈ applyDirective cfg rs d₁, r.oldPath = d.oldPath → r.newPath = d.newPath := by
  intro r hr hrp
  unfold applyDirective at hr
  split at hr
  · split at hr
    · obtain ⟨r₀, hr₀, himg⟩ := List.mem_map.mp hr
      by_cases hcase : r₀.oldPath = d₁.oldPath
      · rw [← himg, setNew_of_eq hcase] at hrp
        exact absurd hrp hne
      · rw [← himg, setNew_eq_self (fun hc => absurd hc hcase)] at hrp ⊢
        exact hval r₀ hr₀ hrp
    · exact hval r hr hrp
  · rcases List.mem_append.mp hr with hr | hr
    · exact hval r hr hrp
    · obtain rfl := List.mem_singleton.mp hr
      exact absurd hrp hne

theorem valOld_foldl_applyDirective_ne (cfg : RunConfig) :
    ∀ (ds rs : List Replace) (d : Replace), (∀ d₁ ∈ ds, d₁.oldPath ≠ d.oldPath) →
      (∀ r ∈ rs, r.oldPath = d.oldPath → r.newPath = d.newPath) →
      ∀ r ∈ ds.foldl (applyDirective cfg) rs, r.oldPath = d.oldPath → r.newPath = d.newPath
  | [], _, _, _, hval => hval
  | d₁ :: ds, _, d, hne, hval =>
    valOld_foldl_applyDirective_ne cfg ds _ d
      (fun d₂ h₂ => hne d₂ (List.mem_cons_of_mem d₁ h₂))
      (valOld_applyDirective_ne (hne d₁ (List.mem_cons_self d₁ ds)) hval)

theorem valOld_foldl_applyDirective (cfg : RunConfig) (hov : cfg.overwrite = true) :
    ∀ (ds rs : List Replace) (d : Replace), d ∈ ds →
      (ds.map (fun d₁ => d₁.oldPath)).Nodup →
      ∀ r ∈ ds.foldl (applyDirective cfg) rs, r.oldPath = d.oldPath → r.newPath = d.newPath
  | [], _, d, hmem, _ => absurd hmem (List.not_mem_nil d)
  | d₁ :: ds, rs, d, hmem, hnd => by
    have hnd2 : (∀ x ∈ ds, ¬x.oldPath = d₁.oldPath) ∧
        (ds.map (fun d₂ => d₂.oldPath)).Nodup := by simpa using hnd
    rcases List.mem_cons.mp hmem with rfl | hmem
    · exact valOld_foldl_applyDirective_ne cfg ds _ d
        (fun d₂ h₂ => hnd2.1 d₂ h₂)
        (valOld_applyDirective_self hov rs d)
    · exact valOld_foldl_applyDirective cfg hov ds _ d hmem hnd2.2

theorem valOld_applyExcluded {repo : Repo} {m : ModuleInfo} {rs : List Replace} {q : String}
    {d : Replace} (hne : q ≠ d.oldPath)
    (hval : ∀ r ∈ rs, r.oldPath = d.oldPath → r.newPath = d.newPath) :
    ∀ r ∈ applyExcluded repo m rs q, r.oldPath = d.oldPath → r.newPath = d.newPath := by
  intro r hr hrp
  unfold applyExcluded at hr
  split at hr
  · exact hval r hr hrp
  · rcases List.mem_append.mp hr with hr | hr
    · exact hval r hr hrp
    · obtain rfl := List.mem_singleton.mp hr
      exact absurd hrp hne

theorem valOld_foldl_applyExcluded (repo : Repo) (m : ModuleInfo) :
    ∀ (ps : List String) (rs : List Replace) (d : Replace), (∀ q ∈ ps, q ≠ d.oldPath) →
      (∀ r ∈ rs, r.oldPath = d.oldPath → r.newPath = d.newPath) →
      ∀ r ∈ ps.foldl (applyExcluded repo m) rs, r.oldPath = d.oldPath → r.newPath = d.newPath
  | [], _, _, _, hval => hval
  | q :: ps, _, d, hne, hval =>
    valOld_foldl_applyExcluded repo m ps _ d
      (fun q₂ h₂ => hne q₂ (List.mem_cons_of_mem q h₂))
      (valOld_applyExcluded (hne q (List.mem_cons_self q ps)) hval)

/-! One rewrite saturates a manifest: a second rewrite is the identity. -/

theorem mergeReplaces_def (repo : Repo) (cfg : RunConfig) (m : ModuleInfo) (rs : List Replace) :
    mergeReplaces repo cfg m rs =
      if cfg.prune then
        ((excludedKeepTargets repo cfg m).foldl (applyExcluded repo m)
          ((synthDirectives repo cfg m).foldl (applyDirective cfg) rs)).filter
            (keptAfterPrune repo cfg m)
      else
        (excludedKeepTargets repo cfg m).foldl (applyExcluded repo m)
          ((synthDirectives repo cfg m).foldl (applyDirective cfg) rs) := by
  unfold mergeReplaces
  cases cfg.prune <;> rfl

theorem processModule_skipped {repo : Repo} {cfg : RunConfig} {m : ModuleInfo}
    (hs : isSkippedDir cfg m.dir = true) : processModule repo cfg m = m.modFile := by
  unfold processModule
  rw [if_pos hs]

theorem processModule_not_skipped (repo : Repo) (cfg : RunConfig) (m : ModuleInfo)
    (hs : isSkippedDir cfg m.dir = false) :
    processModule repo cfg m =
      { m.modFile with replaces := mergeReplaces repo cfg m m.modFile.replaces } := by
  unfold processModule
  rw [if_neg (by rw [hs]; exact Bool.false_ne_true)]

theorem saturation_hasOld_synth (repo : Repo) (cfg : RunConfig) (m : ModuleInfo)
    (rs : List Replace) (d : Replace) (hd : d ∈ synthDirectives repo cfg m) :
    ∃ r ∈ mergeReplaces repo cfg m rs, r.oldPath = d.oldPath := by
  rw [mergeReplaces_def]
  have h1 := hasOld_foldl_applyDirective_mem cfg (synthDirectives repo cfg m) rs d hd
  have h2 := hasOld_foldl_applyExcluded repo m d.oldPath (excludedKeepTargets repo cfg m) _ h1
  cases hp : cfg.prune
  · rw [if_neg Bool.false_ne_true]
    exact h2
  · rw [if_pos rfl]
    refine hasOld_filter_kept h2 (fun r hrp => kept_of_justified ?_)
    rw [hrp]
    exact justified_of_mem_synthTargets (mem_synthDirectives hd).1

theorem saturation_valOld_synth (repo : Repo) (cfg : RunConfig) (m : ModuleInfo)
    (rs : List Replace) (hov : cfg.overwrite = true) (d : Replace)
    (hd : d ∈ synthDirectives repo cfg m) :
    ∀ r ∈ mergeReplaces repo cfg m rs, r.oldPath = d.oldPath → r.newPath = d.newPath := by
  rw [mergeReplaces_def]
  have hnd : ((synthDirectives repo cfg m).map (fun d₁ => d₁.oldPath)).Nodup := by
    rw [synthDirectives_map_oldPath]
    exact nodup_synthTargets repo cfg m
  have h1 := valOld_foldl_applyDirective cfg hov (synthDirectives repo cfg m) rs d hd hnd
  have hexcl : ∀ q ∈ excludedKeepTargets repo cfg m, q ≠ d.oldPath := by
    intro q hq hcontra
    have hqexcl := (mem_excludedKeepTargets.mp hq).2.1
    exact not_excluded_of_mem_synthTargets (mem_synthDirectives hd).1 (hcontra ▸ hqexcl)
  have h2 := valOld_foldl_applyExcluded repo m (excludedKeepTargets repo cfg m) _ d hexcl h1
  cases hp : cfg.prune
  · rw [if_neg Bool.false_ne_true]
    exact h2
  · rw [if_pos rfl]
    intro r hr hrp
    exact h2 r (List.mem_filter.mp hr).1 hrp

theorem saturation_hasOld_excluded (repo : Repo) (cfg : RunConfig) (m : ModuleInfo)
    (rs : List Replace) (q : String) (hq : q ∈ excludedKeepTargets repo cfg m) :
    ∃ r ∈ mergeReplaces repo cfg m rs, r.oldPath = q := by
  rw [mergeReplaces_def]
  have h2 := hasOld_foldl_applyExcluded_mem repo m (excludedKeepTargets repo cfg m)
    ((synthDirectives repo cfg m).foldl (applyDirective cfg) rs) q hq
  cases hp : cfg.prune
  · rw [if_neg Bool.false_ne_true]
    exact h2
  · rw [if_pos rfl]
    exact hasOld_filter_kept h2 (fun r hrp => kept_of_excludedKeep (hrp.symm ▸ hq))

theorem mergeReplaces_idem (repo : Repo) (cfg : RunConfig) (m : ModuleInfo)
    (rs : List Replace) :
    mergeReplaces repo cfg m (mergeReplaces repo cfg m rs) = mergeReplaces repo cfg m rs := by
  have hfold1 : (synthDirectives repo cfg m).foldl (applyDirective cfg)
      (mergeReplaces repo cfg m rs) = mergeReplaces repo cfg m rs :=
    foldl_applyDirective_eq_self cfg _ _ (fun d hd =>
      ⟨saturation_hasOld_synth repo cfg m rs d hd,
        fun hov => saturation_valOld_synth repo cfg m rs hov d hd⟩)
  have hfold2 : (excludedKeepTargets repo cfg m).foldl (applyExcluded repo m)
      (mergeReplaces repo cfg m rs) = mergeReplaces repo cfg m rs :=
    foldl_applyExcluded_eq_self repo m _ _
      (fun q hq => saturation_hasOld_excluded repo cfg m rs q hq)
  rw [mergeReplaces_def repo cfg m (mergeReplaces repo cfg m rs), hfold1, hfold2]
  cases hp : cfg.prune
  · rw [if_neg Bool.false_ne_true]
  · rw [if_pos rfl]
    refine List.filter_eq_self.mpr ?_
    intro r hr
    rw [mergeReplaces_def repo cfg m rs, if_pos hp] at hr
    exact (List.mem_filter.mp hr).2

theorem processModule_fixpoint (repo : Repo) (cfg : RunConfig) (m : ModuleInfo) :
    processModule repo cfg { m with modFile := processModule repo cfg m } =
      processModule repo cfg m := by
  cases hs : isSkippedDir cfg m.dir
  · rw [processModule_not_skipped repo cfg m hs]
    rw [processModule_not_skipped repo cfg
      { m with modFile :=
        { m.modFile with replaces := mergeReplaces repo cfg m m.modFile.replaces } } hs]
    show { m.modFile with replaces := (mergeReplaces repo cfg m
      (mergeReplaces repo cfg m m.modFile.replaces)) } = _
    rw [mergeReplaces_idem]
  · have h2 : processModule repo cfg m = m.modFile := processModule_skipped hs
    rw [h2]
    exact processModule_skipped hs

/-! A crosslink rewrite changes only replace lists, so every input of the
graph computation is preserved and a second run recomputes the same
directives. -/

theorem processModule_modPath (repo : Repo) (cfg : RunConfig) (m : ModuleInfo) :
    (processModule repo cfg m).modPath = m.modFile.modPath := by
  cases hs : isSkippedDir cfg m.dir
  · rw [processModule_not_skipped repo cfg m hs]
  · rw [processModule_skipped hs]

theorem processModule_requires (repo : Repo) (cfg : RunConfig) (m : ModuleInfo) :
    (processModule repo cfg m).requires = m.modFile.requires := by
  cases hs : isSkippedDir cfg m.dir
  · rw [processModule_not_skipped repo cfg m hs]
  · rw [processModule_skipped hs]

theorem identities_rewriteRepo (repo : Repo) (cfg : RunConfig) :
    (rewriteRepo repo cfg).identities = repo.identities := by
  show (repo.modules.map (fun m => ({ m with modFile := processModule repo cfg m } : ModuleInfo))).map
      (fun m => m.modFile.modPath) = repo.modules.map (fun m => m.modFile.modPath)
  rw [List.map_map]
  exact List.map_congr_left (fun m _ => processModule_modPath repo cfg m)

theorem find?_rewriteRepo (repo : Repo) (cfg : RunConfig) (p : String) :
    ∀ l : List ModuleInfo,
      (l.map (fun m => ({ m with modFile := processModule repo cfg m } : ModuleInfo))).find?
        (fun m => m.modFile.modPath = p) =
      (l.find? (fun m => m.modFile.modPath = p)).map
        (fun m => ({ m with modFile := processModule repo cfg m } : ModuleInfo))
  | [] => rfl
  | m :: l => by
    simp only [List.map_cons, List.find?_cons]
    rw [show ({ m with modFile := processModule repo cfg m } : ModuleInfo).modFile.modPath
      = m.modFile.modPath from processModule_modPath repo cfg m]
    cases hc : decide (m.modFile.modPath = p)
    · exact find?_rewriteRepo repo cfg p l
    · rfl

theorem dirOf_rewriteRepo (repo : Repo) (cfg : RunConfig) (p : String) :
    (rewriteRepo repo cfg).dirOf p = repo.dirOf p := by
  show ((repo.modules.map (fun m => ({ m with modFile := processModule repo cfg m } : ModuleInfo))).find?
      (fun m => m.modFile.modPath = p)).map (fun m => m.dir) =
    (repo.modules.find? (fun m => m.modFile.modPath = p)).map (fun m => m.dir)
  rw [find?_rewriteRepo repo cfg p repo.modules]
  cases repo.modules.find? (fun m => m.modFile.modPath = p) <;> rfl

theorem requiresOf_rewriteRepo (repo : Repo) (cfg : RunConfig) (p : String) :
    (rewriteRepo repo cfg).requiresOf p = repo.requiresOf p := by
  unfold Repo.requiresOf
  rw [show (rewriteRepo repo cfg).modules
      = repo.modules.map (fun m => ({ m with modFile := processModule repo cfg m } : ModuleInfo)) from rfl]
  rw [find?_rewriteRepo repo cfg p repo.modules]
  cases repo.modules.find? (fun m => m.modFile.modPath = p)
  · rfl
  · exact processModule_requires repo cfg _

theorem onDiskDir_rewriteRepo (repo : Repo) (cfg : RunConfig) (p : String) :
    (rewriteRepo repo cfg).onDiskDir p = repo.onDiskDir p := by
  unfold Repo.onDiskDir
  rw [dirOf_rewriteRepo]
  rfl

theorem directDeps_rewriteRepo (repo : Repo) (cfg : RunConfig) (s : String) :
    directDeps (rewriteRepo repo cfg) cfg s = directDeps repo cfg s := by
  unfold directDeps
  rw [requiresOf_rewriteRepo, identities_rewriteRepo]

theorem reachable_rewriteRepo (repo : Repo) (cfg : RunConfig) (s : String) :
    reachable (rewriteRepo repo cfg) cfg s = reachable repo cfg s := by
  unfold reachable
  have hcs : closureStep (rewriteRepo repo cfg) cfg = closureStep repo cfg := by
    funext l
    unfold closureStep
    rw [funext (directDeps_rewriteRepo repo cfg)]
  rw [hcs]
  rw [show (rewriteRepo repo cfg).modules.length = repo.modules.length from
    List.length_map _ _]

theorem synthTargets_rewriteRepo (repo : Repo) (cfg : RunConfig) (m : ModuleInfo) :
    synthTargets (rewriteRepo repo cfg) cfg m = synthTargets repo cfg m := by
  unfold synthTargets
  rw [reachable_rewriteRepo]
  have hok : targetOk (rewriteRepo repo cfg) cfg m.modFile.modPath
      = targetOk repo cfg m.modFile.modPath := by
    funext p
    unfold targetOk
    rw [dirOf_rewriteRepo]
  rw [hok]

theorem synthDirectives_rewriteRepo (repo : Repo) (cfg : RunConfig) (m : ModuleInfo) :
    synthDirectives (rewriteRepo repo cfg) cfg m = synthDirectives repo cfg m := by
  unfold synthDirectives
  rw [synthTargets_rewriteRepo]
  exact List.map_congr_left (fun p _ => by rw [dirOf_rewriteRepo])

theorem excludedKeepTargets_rewriteRepo (repo : Repo) (cfg : RunConfig) (m : ModuleInfo) :
    excludedKeepTargets (rewriteRepo repo cfg) cfg m = excludedKeepTargets repo cfg m := by
  unfold excludedKeepTargets
  refine congrArg List.dedup (List.filter_congr ?_)
  intro p _
  rw [onDiskDir_rewriteRepo]

theorem keptAfterPrune_rewriteRepo (repo : Repo) (cfg : RunConfig) (m : ModuleInfo) :
    keptAfterPrune (rewriteRepo repo cfg) cfg m = keptAfterPrune repo cfg m := by
  funext r
  unfold keptAfterPrune justified
  rw [reachable_rewriteRepo, excludedKeepTargets_rewriteRepo]

theorem applyExcluded_rewriteRepo (repo : Repo) (cfg : RunConfig) (m : ModuleInfo) :
    applyExcluded (rewriteRepo repo cfg) m = applyExcluded repo m := by
  funext rs q
  unfold applyExcluded
  rw [onDiskDir_rewriteRepo]

theorem mergeReplaces_rewriteRepo (repo : Repo) (cfg : RunConfig) (m : ModuleInfo)
    (rs : List Replace) :
    mergeReplaces (rewriteRepo repo cfg) cfg m rs = mergeReplaces repo cfg m rs := by
  rw [mergeReplaces_def, mergeReplaces_def]
  rw [synthDirectives_rewriteRepo, excludedKeepTargets_rewriteRepo,
    keptAfterPrune_rewriteRepo, applyExcluded_rewriteRepo]

theorem processModule_rewriteRepo (repo : Repo) (cfg : RunConfig) (m : ModuleInfo) :
    processModule (rewriteRepo repo cfg) cfg m = processModule repo cfg m := by
  cases hs : isSkippedDir cfg m.dir
  · rw [processModule_not_skipped (rewriteRepo repo cfg) cfg m hs,
      processModule_not_skipped repo cfg m hs, mergeReplaces_rewriteRepo]
  · rw [processModule_skipped hs, processModule_skipped hs]

theorem rewriteRepo_idem (repo : Repo) (cfg : RunConfig) :
    rewriteRepo (rewriteRepo repo cfg) cfg = rewriteRepo repo cfg := by
  have hmods : (rewriteRepo (rewriteRepo repo cfg) cfg).modules
      = (rewriteRepo repo cfg).modules := by
    show ((rewriteRepo repo cfg).modules).map
        (fun m => ({ m with modFile := processModule (rewriteRepo repo cfg) cfg m } : ModuleInfo))
      = (rewriteRepo repo cfg).modules
    have hpt : ∀ m' ∈ (rewriteRepo repo cfg).modules,
        ({ m' with modFile := processModule (rewriteRepo repo cfg) cfg m' } : ModuleInfo)
          = m' := by
      intro m' hm'
      obtain ⟨m, _, rfl⟩ := List.mem_map.mp hm'
      rw [processModule_rewriteRepo]
      show ({ m with modFile := (processModule repo cfg
        { m with modFile := processModule repo cfg m }) } : ModuleInfo) = _
      rw [processModule_fixpoint]
    exact (List.map_congr_left hpt).trans (List.map_id' _)
  show ({ rewriteRepo repo cfg with
    modules := (rewriteRepo (rewriteRepo repo cfg) cfg).modules } : Repo) = rewriteRepo repo cfg
  rw [hmods]

theorem hasRootManifest_rewriteRepo (repo : Repo) (cfg : RunConfig) :
    (rewriteRepo repo cfg).hasRootManifest = repo.hasRootManifest := by
  show (repo.modules.map (fun m => ({ m with modFile := processModule repo cfg m } : ModuleInfo))).any
      (fun m => m.dir.isEmpty) = repo.modules.any (fun m => m.dir.isEmpty)
  rw [List.any_map]
  rfl

/-- The root module of the testSimple repository: it requires testA and
carries stale replace directives for testY and testZ, whose directories are
not modules of the repository. -/
def rootSimple : ModuleInfo :=
  ⟨[], ⟨"root", "go 1.20", [⟨"testA", "v1.0.0"⟩],
    [⟨"testY", "./testY"⟩, ⟨"testZ", "./testZ"⟩]⟩⟩

/-- The testSimple repository: the root module requires testA, testA requires
testB, testB requires nothing local. -/
def repoSimple : Repo :=
  ⟨[rootSimple,
    ⟨["testA"], ⟨"testA", "go 1.20", [⟨"testB", "v1.0.0"⟩], []⟩⟩,
    ⟨["testB"], ⟨"testB", "go 1.20", [], []⟩⟩], []⟩

/-- A configuration with pruning enabled and everything else defaulted. -/
def cfgPrune : RunConfig := { prune := true }

/-- The testCyclic repository: root requires testA, testA requires testB,
and testB requires the root module back, closing a dependency cycle. -/
def repoCyclic : Repo :=
  ⟨[⟨[], ⟨"root", "go 1.20", [⟨"testA", "v1.0.0"⟩], []⟩⟩,
    ⟨["testA"], ⟨"testA", "go 1.20", [⟨"testB", "v1.0.0"⟩], []⟩⟩,
    ⟨["testB"], ⟨"testB", "go 1.20", [⟨"root", "v1.0.0"⟩], []⟩⟩], []⟩

/-- The root module of the testOverwrite repository: it requires testA and
holds a stale override for testA recording the wrong relative path. -/
def rootStale : ModuleInfo :=
  ⟨[], ⟨"root", "go 1.20", [⟨"testA", "v1.0.0"⟩], [⟨"testA", "../testA"⟩]⟩⟩

/-- The testOverwrite repository: as testSimple but with the stale root
override for testA. -/
def repoStale : Repo :=
  ⟨[rootStale,
    ⟨["testA"], ⟨"testA", "go 1.20", [⟨"testB", "v1.0.0"⟩], []⟩⟩,
    ⟨["testB"], ⟨"testB", "go 1.20", [], []⟩⟩], []⟩

/-- A configuration with overwriting enabled and everything else defaulted. -/
def cfgOverwrite : RunConfig := { overwrite := true }

/-- The root module of the testExclude repository: it directly requires
testA and the external identity excludeme, with pre-existing local-path
overrides for both. -/
def rootExclude : ModuleInfo :=
  ⟨[], ⟨"root", "go 1.20", [⟨"testA", "v1.0.0"⟩, ⟨"excludeme", "v1.2.3"⟩],
    [⟨"testA", "../testA"⟩, ⟨"excludeme", "../excludeme"⟩]⟩⟩

/-- The testExclude repository: the excludeme checkout exists on disk next
to the root; testA requires testB with a pre-existing override. -/
def repoExclude : Repo :=
  ⟨[rootExclude,
    ⟨["testA"], ⟨"testA", "go 1.20", [⟨"testB", "v1.0.0"⟩], [⟨"testB", "../testB"⟩]⟩⟩,
    ⟨["testB"], ⟨"testB", "go 1.20", [], []⟩⟩],
   [("excludeme", ["..", "excludeme"])]⟩

/-- The exclude-scenario configuration: prune on, overwrite off, all of
testA, testB and excludeme excluded. -/
def cfgExclude : RunConfig :=
  { prune := true, excludedPaths := ["testB", "excludeme", "testA"], verbose := true }

/-- The exclude-scenario configuration with overwrite enabled. -/
def cfgExcludeOverwrite : RunConfig :=
  { cfgExclude with overwrite := true }

/-- The testA module of the testSkip repository: it requires testB and
already carries its computed override. -/
def modASkip : ModuleInfo :=
  ⟨["testA"], ⟨"testA", "go 1.20", [⟨"testB", "v1.0.0"⟩], [⟨"testB", "../testB"⟩]⟩⟩

/-- The testSkip repository: root requires testA, testA requires testB. -/
def repoSkip : Repo :=
  ⟨[⟨[], ⟨"root", "go 1.20", [⟨"testA", "v1.0.0"⟩], []⟩⟩,
    modASkip,
    ⟨["testB"], ⟨"testB", "go 1.20", [], []⟩⟩], []⟩

/-- The skip-scenario configuration: prune on, testA manifest skipped. -/
def cfgSkip : RunConfig := { prune := true, skippedPaths := ["testA/go.mod"] }

/-- A repository with modules but none of them at the root directory. -/
def repoNoRoot : Repo :=
  ⟨[⟨["sub"], ⟨"sub", "go 1.20", [], []⟩⟩], []⟩

/-- A one-module repository used to witness idempotence. -/
def repoTiny : Repo :=
  ⟨[⟨[], ⟨"root", "go 1.20", [], []⟩⟩], []⟩

/-! The claims. -/

/-- C1: For the three-module repository where the root requires testA at
v1.0.0, testA requires testB at v1.0.0 and testB requires nothing local,
crosslinking with the default configuration produces a root manifest
containing replace testA to ./testA and replace testB to ./testB
(transitively), a testA manifest whose replace list is exactly testB to
../testB, and a testB manifest with no replace directives added. -/
theorem crosslink_simple_scenario :
    (⟨"testA", "./testA"⟩ : Replace) ∈ replacesAt (Crosslink repoSimple DefaultRunConfig) []
    ∧ (⟨"testB", "./testB"⟩ : Replace) ∈ replacesAt (Crosslink repoSimple DefaultRunConfig) []
    ∧ replacesAt (Crosslink repoSimple DefaultRunConfig) ["testA"] = [⟨"testB", "../testB"⟩]
    ∧ replacesAt (Crosslink repoSimple DefaultRunConfig) ["testB"] = [] := by
  decide

/-- C2: On the cyclic repository (root requires testA, testA requires
testB, testB requires root), crosslink terminates successfully, the root
module appears in its own reachable set without being an error, and each
module receives override directives for every other module reachable from
it around the cycle. -/
theorem crosslink_cyclic_terminates :
    (Crosslink repoCyclic DefaultRunConfig).isOk = true
    ∧ "root" ∈ reachable repoCyclic DefaultRunConfig "root"
    ∧ (⟨"testA", "./testA"⟩ : Replace) ∈ replacesAt (Crosslink repoCyclic DefaultRunConfig) []
    ∧ (⟨"testB", "./testB"⟩ : Replace) ∈ replacesAt (Crosslink repoCyclic DefaultRunConfig) []
    ∧ (⟨"testB", "../testB"⟩ : Replace)
        ∈ replacesAt (Crosslink repoCyclic DefaultRunConfig) ["testA"]
    ∧ (⟨"root", "../"⟩ : Replace) ∈ replacesAt (Crosslink repoCyclic DefaultRunConfig) ["testA"]
    ∧ (⟨"testA", "../testA"⟩ : Replace)
        ∈ replacesAt (Crosslink repoCyclic DefaultRunConfig) ["testB"]
    ∧ (⟨"root", "../"⟩ : Replace)
        ∈ replacesAt (Crosslink repoCyclic DefaultRunConfig) ["testB"] := by
  decide

/-- C3: In every run with Overwrite enabled, an existing override for an
identity the synthesizer also targets has its path replaced by the freshly
computed relative path: the override for that identity at the fresh path is
in the output (its identity carried over from the existing override), every
output override for that identity records the fresh path, and the stale
entry — when its recorded path differs from the fresh one — is gone. -/
theorem overwrite_replaces_existing (repo : Repo) (cfg : RunConfig) (m : ModuleInfo)
    (r : Replace) (hov : cfg.overwrite = true) (hs : isSkippedDir cfg m.dir = false)
    (hr : r ∈ m.modFile.replaces) (ht : r.oldPath ∈ synthTargets repo cfg m) :
    (⟨r.oldPath, relPath m.dir ((repo.dirOf r.oldPath).getD [])⟩ : Replace)
      ∈ (processModule repo cfg m).replaces
    ∧ (∀ e ∈ (processModule repo cfg m).replaces,
        e.oldPath = r.oldPath → e.newPath = relPath m.dir ((repo.dirOf r.oldPath).getD []))
    ∧ (r.newPath ≠ relPath m.dir ((repo.dirOf r.oldPath).getD []) →
        r ∉ (processModule repo cfg m).replaces) := by
  have hd : (⟨r.oldPath, relPath m.dir ((repo.dirOf r.oldPath).getD [])⟩ : Replace)
      ∈ synthDirectives repo cfg m := List.mem_map_of_mem _ ht
  rw [processModule_not_skipped repo cfg m hs]
  have hval : ∀ e ∈ mergeReplaces repo cfg m m.modFile.replaces,
      e.oldPath = r.oldPath → e.newPath = relPath m.dir ((repo.dirOf r.oldPath).getD []) := by
    intro e he hep
    exact saturation_valOld_synth repo cfg m m.modFile.replaces hov _ hd e he hep
  have hpres : ∃ e ∈ mergeReplaces repo cfg m m.modFile.replaces, e.oldPath = r.oldPath := by
    rw [mergeReplaces_def]
    have h1 := hasOld_foldl_applyDirective cfg r.oldPath (synthDirectives repo cfg m)
      m.modFile.replaces ⟨r, hr, rfl⟩
    have h2 := hasOld_foldl_applyExcluded repo m r.oldPath (excludedKeepTargets repo cfg m) _ h1
    cases hp : cfg.prune
    · rw [if_neg Bool.false_ne_true]
      exact h2
    · rw [if_pos rfl]
      refine hasOld_filter_kept h2 (fun e hep => kept_of_justified ?_)
      rw [hep]
      exact justified_of_mem_synthTargets ht
  obtain ⟨e, he, hep⟩ := hpres
  have hefresh := hval e he hep
  have hee : e = ⟨r.oldPath, relPath m.dir ((repo.dirOf r.oldPath).getD [])⟩ := by
    obtain ⟨o, n⟩ := e
    cases hep
    cases hefresh
    rfl
  refine ⟨hee ▸ he, hval, ?_⟩
  intro hne hmem
  exact hne (hval r hmem rfl)

/-- C3 witness: in the testOverwrite scenario with Overwrite on, the root
manifest's stale override testA to ../testA is replaced: the freshly
computed path is recorded for testA and the stale entry is gone. -/
theorem overwrite_replaces_existing_witness :
    (⟨"testA", relPath rootStale.dir ((repoStale.dirOf "testA").getD [])⟩ : Replace)
      ∈ (processModule repoStale cfgOverwrite rootStale).replaces
    ∧ (⟨"testA", "../testA"⟩ : Replace)
      ∉ (processModule repoStale cfgOverwrite rootStale).replaces := by
  have h := overwrite_replaces_existing repoStale cfgOverwrite rootStale
    ⟨"testA", "../testA"⟩ rfl (by decide) (by decide) (by decide)
  exact ⟨h.1, h.2.2 (by decide)⟩

/-- C4: In every run with Overwrite disabled (and no pruning), a processed
manifest's replace list is its original replace list, untouched, followed
only by directives for identities that had no override before; in
particular every pre-existing override keeps its recorded path even when it
differs from the freshly computed one. -/
theorem no_overwrite_keeps_existing (repo : Repo) (cfg : RunConfig) (m : ModuleInfo)
    (hov : cfg.overwrite = false) (hp : cfg.prune = false)
    (hs : isSkippedDir cfg m.dir = false) :
    ∃ ext, (processModule repo cfg m).replaces = m.modFile.replaces ++ ext ∧
      ∀ e ∈ ext, ∀ r ∈ m.modFile.replaces, r.oldPath ≠ e.oldPath := by
  rw [processModule_not_skipped repo cfg m hs, mergeReplaces_def,
    if_neg (by rw [hp]; exact Bool.false_ne_true)]
  obtain ⟨ext1, hext1, hdisj1⟩ := foldl_applyDirective_append cfg hov
    (synthDirectives repo cfg m) m.modFile.replaces
  obtain ⟨ext2, hext2, hdisj2⟩ := foldl_applyExcluded_append repo m
    (excludedKeepTargets repo cfg m)
    ((synthDirectives repo cfg m).foldl (applyDirective cfg) m.modFile.replaces)
  refine ⟨ext1 ++ ext2, ?_, ?_⟩
  · rw [hext2, hext1, List.append_assoc]
  · intro e he r hrr
    rcases List.mem_append.mp he with he | he
    · exact hdisj1 e he r hrr
    · exact hdisj2 e he r (by rw [hext1]; exact List.mem_append_left _ hrr)

/-- C4 witness: rerunning the testOverwrite scenario with the default
configuration leaves the stale root override list as a prefix, appending
only overrides for identities that had none. -/
theorem no_overwrite_keeps_existing_witness :
    ∃ ext, (processModule repoStale DefaultRunConfig rootStale).replaces
        = rootStale.modFile.replaces ++ ext ∧
      ∀ e ∈ ext, ∀ r ∈ rootStale.modFile.replaces, r.oldPath ≠ e.oldPath :=
  no_overwrite_keeps_existing repoStale DefaultRunConfig rootStale rfl rfl (by decide)

/-- C5 counterexample: in the exclude scenario the run has Prune on, the
root manifest is not skipped, and no direct or transitive dependency edge
of the freshly rebuilt graph justifies the excludeme override — yet the
override is not removed, refuting the claim that every unjustified override
of a non-skipped manifest is removed. -/
theorem prune_unjustified_survives :
    cfgExclude.prune = true
    ∧ isSkippedDir cfgExclude rootExclude.dir = false
    ∧ justified repoExclude cfgExclude rootExclude "excludeme" = false
    ∧ (⟨"excludeme", "../excludeme"⟩ : Replace) ∈ rootExclude.modFile.replaces
    ∧ (⟨"excludeme", "../excludeme"⟩ : Replace)
        ∈ replacesAt (Crosslink repoExclude cfgExclude) [] := by
  decide

/-- C5 (amended): the pruner removes from a non-skipped manifest exactly
those overrides protected by no keep rule — an override survives iff it was
already present and either a direct or transitive dependency edge of the
freshly rebuilt graph justifies it, or its target is an excluded identity
that the module directly requires and that exists on disk; in particular
pruning never invents a directive. -/
theorem prune_removes_unjustified (repo : Repo) (cfg : RunConfig) (m : ModuleInfo)
    (hs : isSkippedDir cfg m.dir = false) (r : Replace) :
    r ∈ (pruneModule repo cfg m).replaces ↔
      r ∈ m.modFile.replaces ∧ (justified repo cfg m r.oldPath = true
        ∨ r.oldPath ∈ excludedKeepTargets repo cfg m) := by
  unfold pruneModule
  rw [if_neg (by rw [hs]; exact Bool.false_ne_true)]
  show r ∈ m.modFile.replaces.filter (keptAfterPrune repo cfg m) ↔ _
  rw [List.mem_filter]
  unfold keptAfterPrune
  rw [Bool.or_eq_true, contains_iff_mem]

/-- C5 witness: in the testSimple repository with pruning, the stale testY
override of the root manifest is characterized by the pruning rule (and is
in fact removed, since testY is justified by no edge and not excluded). -/
theorem prune_removes_unjustified_witness :
    (⟨"testY", "./testY"⟩ : Replace) ∈ (pruneModule repoSimple cfgPrune rootSimple).replaces ↔
      (⟨"testY", "./testY"⟩ : Replace) ∈ rootSimple.modFile.replaces ∧
        (justified repoSimple cfgPrune rootSimple "testY" = true
          ∨ "testY" ∈ excludedKeepTargets repoSimple cfgPrune rootSimple) :=
  prune_removes_unjustified repoSimple cfgPrune rootSimple (by decide) ⟨"testY", "./testY"⟩

/-- C6: an excluded identity takes no part in the dependency graph — no
edge leads into or out of it and no synthesized directive names it (so no
override for it is rewritten even with Overwrite on) — while in the exclude
scenario (prune on, overwrite on) a directly required excluded identity
whose directory exists on disk keeps its local-path override, surviving
both overwriting and pruning. -/
theorem excluded_isolated (repo : Repo) (cfg : RunConfig) (x : String)
    (hx : x ∈ cfg.excludedPaths) :
    (∀ s, x ∉ directDeps repo cfg s)
    ∧ directDeps repo cfg x = []
    ∧ (∀ m : ModuleInfo, x ∉ (synthDirectives repo cfg m).map (fun d => d.oldPath))
    ∧ ((⟨"testA", "../testA"⟩ : Replace)
        ∈ replacesAt (Crosslink repoExclude cfgExcludeOverwrite) []
      ∧ (⟨"excludeme", "../excludeme"⟩ : Replace)
        ∈ replacesAt (Crosslink repoExclude cfgExcludeOverwrite) []
      ∧ (⟨"testB", "../testB"⟩ : Replace)
        ∈ replacesAt (Crosslink repoExclude cfgExcludeOverwrite) ["testA"]) := by
  refine ⟨fun s hmem => mem_directDeps_not_excluded hmem hx, ?_, ?_, ?_⟩
  · unfold directDeps
    rw [if_pos (contains_iff_mem.mpr hx)]
  · intro m hmem
    rw [synthDirectives_map_oldPath] at hmem
    exact not_excluded_of_mem_synthTargets hmem hx
  · exact ⟨by decide, by decide, by decide⟩

/-- C6 witness: testA is excluded in the exclude scenario, so no edge
leaves the root towards it and it has no outgoing edges. -/
theorem excluded_isolated_witness :
    ("testA" ∉ directDeps repoExclude cfgExcludeOverwrite "root")
    ∧ directDeps repoExclude cfgExcludeOverwrite "testA" = [] := by
  have h := excluded_isolated repoExclude cfgExcludeOverwrite "testA" (by decide)
  exact ⟨h.1 "root", h.2.1⟩

/-- C7: in every successful crosslink run, a module whose manifest path is
in the skip set comes out byte-for-byte unchanged — whatever the Prune and
Overwrite settings — while every non-skipped module of the same run is
still rewritten by the normal merge-and-prune pass. -/
theorem skipped_unchanged (repo : Repo) (cfg : RunConfig) (out : Repo)
    (h : Crosslink repo cfg = Except.ok out) :
    ∀ m ∈ repo.modules,
      (isSkippedDir cfg m.dir = true → m ∈ out.modules)
      ∧ (isSkippedDir cfg m.dir = false →
          ({ m with modFile := { m.modFile with
            replaces := mergeReplaces repo cfg m m.modFile.replaces } } : ModuleInfo)
            ∈ out.modules) := by
  unfold Crosslink at h
  split at h
  · injection h with h
    subst h
    intro m hm
    constructor
    · intro hs
      have hmem : ({ m with modFile := processModule repo cfg m } : ModuleInfo)
          ∈ (rewriteRepo repo cfg).modules := List.mem_map_of_mem _ hm
      rw [processModule_skipped hs] at hmem
      exact hmem
    · intro hs
      have hmem : ({ m with modFile := processModule repo cfg m } : ModuleInfo)
          ∈ (rewriteRepo repo cfg).modules := List.mem_map_of_mem _ hm
      rw [processModule_not_skipped repo cfg m hs] at hmem
      exact hmem
  · exact absurd h (by simp)

/-- C7 witness: in the testSkip scenario (prune on, testA manifest
skipped), the testA module survives the run byte-for-byte unchanged. -/
theorem skipped_unchanged_witness :
    modASkip ∈ (rewriteRepo repoSkip cfgSkip).modules := by
  have h := skipped_unchanged repoSkip cfgSkip (rewriteRepo repoSkip cfgSkip) rfl
  exact (h modASkip (by decide)).1 (by decide)

/-- C8: when no manifest exists at the root of the repository tree, both
the crosslink operation and the standalone prune operation fail with the
root-not-found error, returning no rewritten repository. -/
theorem no_root_manifest_errors (repo : Repo) (cfg : RunConfig)
    (h : ∀ m ∈ repo.modules, m.dir ≠ []) :
    Crosslink repo cfg = Except.error CrosslinkError.rootNotFound
    ∧ Prune repo cfg = Except.error CrosslinkError.rootNotFound := by
  have hroot : repo.hasRootManifest = false := by
    unfold Repo.hasRootManifest
    cases hany : repo.modules.any (fun m => m.dir.isEmpty)
    · rfl
    · obtain ⟨m, hm, hemp⟩ := List.any_eq_true.mp hany
      exact absurd (List.isEmpty_iff.mp hemp) (h m hm)
  constructor
  · unfold Crosslink
    rw [hroot, if_neg Bool.false_ne_true]
  · unfold Prune
    rw [hroot, if_neg Bool.false_ne_true]

/-- C8 witness: a repository whose only module lives in a subdirectory has
no root manifest, and both operations fail on it. -/
theorem no_root_manifest_errors_witness :
    Crosslink repoNoRoot DefaultRunConfig = Except.error CrosslinkError.rootNotFound
    ∧ Prune repoNoRoot DefaultRunConfig = Except.error CrosslinkError.rootNotFound :=
  no_root_manifest_errors repoNoRoot DefaultRunConfig (by decide)

/-- C9: crosslink is determinate and idempotent: for every repository and
configuration, the synthesized directives of each manifest are emitted in
an order sorted by target identity, and rerunning crosslink on the output
of a successful run returns that output byte-for-byte. -/
theorem deterministic_sorted_idempotent :
    (∀ (repo : Repo) (cfg : RunConfig) (m : ModuleInfo),
      (synthDirectives repo cfg m).Pairwise (fun a b => strLe a.oldPath b.oldPath = true))
    ∧ ∀ (repo : Repo) (cfg : RunConfig) (out : Repo),
        Crosslink repo cfg = Except.ok out → Crosslink out cfg = Except.ok out := by
  constructor
  · intro repo cfg m
    unfold synthDirectives
    rw [List.pairwise_map]
    exact pairwise_sortStrings _
  · intro repo cfg out h
    unfold Crosslink at h ⊢
    split at h
    · next hroot =>
      injection h with h
      subst h
      rw [if_pos (by rw [hasRootManifest_rewriteRepo]; exact hroot)]
      rw [rewriteRepo_idem]
    · exact absurd h (by simp)

/-- C9 witness: the output of crosslinking the one-module repository is a
fixpoint of crosslink. -/
theorem deterministic_sorted_idempotent_witness :
    Crosslink (rewriteRepo repoTiny DefaultRunConfig) DefaultRunConfig
      = Except.ok (rewriteRepo repoTiny DefaultRunConfig) :=
  deterministic_sorted_idempotent.2 repoTiny DefaultRunConfig
    (rewriteRepo repoTiny DefaultRunConfig) rfl

/-! A skip entry that matches no manifest of the repository has no effect. -/

theorem dirOf_mem_dir {repo : Repo} {p : String} {d : List String}
    (h : repo.dirOf p = some d) : ∃ m ∈ repo.modules, m.dir = d := by
  unfold Repo.dirOf at h
  cases hf : repo.modules.find? (fun m => m.modFile.modPath = p)
  · rw [hf] at h
    simp at h
  · next m =>
    rw [hf] at h
    injection h with h
    exact ⟨m, List.mem_of_find?_eq_some hf, h⟩

theorem isSkippedDir_cons_ne {cfg : RunConfig} {s : String} {d : List String}
    (h : manifestPath d ≠ s) :
    isSkippedDir { cfg with skippedPaths := s :: cfg.skippedPaths } d
      = isSkippedDir cfg d := by
  unfold isSkippedDir
  show (s :: cfg.skippedPaths).contains (manifestPath d) = _
  rw [List.contains_cons, beq_false_of_ne h, Bool.false_or]

theorem targetOk_skip_missing (repo : Repo) (cfg : RunConfig) (s : String)
    (h : ∀ m ∈ repo.modules, manifestPath m.dir ≠ s) (sp p : String) :
    targetOk repo { cfg with skippedPaths := s :: cfg.skippedPaths } sp p
      = targetOk repo cfg sp p := by
  unfold targetOk
  cases hf : repo.dirOf p
  · rfl
  · next d =>
    obtain ⟨m, hm, rfl⟩ := dirOf_mem_dir hf
    show (p != sp && !isSkippedDir { cfg with skippedPaths := s :: cfg.skippedPaths } m.dir)
      = (p != sp && !isSkippedDir cfg m.dir)
    rw [isSkippedDir_cons_ne (h m hm)]

theorem mergeReplaces_skip_missing (repo : Repo) (cfg : RunConfig) (s : String)
    (h : ∀ m ∈ repo.modules, manifestPath m.dir ≠ s) (m : ModuleInfo) (rs : List Replace) :
    mergeReplaces repo { cfg with skippedPaths := s :: cfg.skippedPaths } m rs
      = mergeReplaces repo cfg m rs := by
  rw [mergeReplaces_def, mergeReplaces_def]
  have hsyn : synthDirectives repo { cfg with skippedPaths := s :: cfg.skippedPaths } m
      = synthDirectives repo cfg m := by
    unfold synthDirectives synthTargets
    have hreach : reachable repo { cfg with skippedPaths := s :: cfg.skippedPaths }
        m.modFile.modPath = reachable repo cfg m.modFile.modPath := rfl
    have hok : targetOk repo { cfg with skippedPaths := s :: cfg.skippedPaths }
        m.modFile.modPath = targetOk repo cfg m.modFile.modPath :=
      funext (targetOk_skip_missing repo cfg s h m.modFile.modPath)
    rw [hreach, hok]
  have hke : keptAfterPrune repo { cfg with skippedPaths := s :: cfg.skippedPaths } m
      = keptAfterPrune repo cfg m := rfl
  have hek : excludedKeepTargets repo { cfg with skippedPaths := s :: cfg.skippedPaths } m
      = excludedKeepTargets repo cfg m := rfl
  have happ : applyDirective { cfg with skippedPaths := s :: cfg.skippedPaths }
      = applyDirective cfg := rfl
  have hpr : ({ cfg with skippedPaths := s :: cfg.skippedPaths } : RunConfig).prune
      = cfg.prune := rfl
  rw [hsyn, hke, hek, happ, hpr]

/-- C10: a skipped-path entry that matches no manifest of the repository
has no effect: the whole run completes exactly as it would without that
entry (so it succeeds whenever the base run succeeds, and rewrites every
manifest identically). -/
theorem skip_nonexistent_no_effect (repo : Repo) (cfg : RunConfig) (s : String)
    (h : ∀ m ∈ repo.modules, manifestPath m.dir ≠ s) :
    Crosslink repo { cfg with skippedPaths := s :: cfg.skippedPaths }
      = Crosslink repo cfg := by
  have hproc : ∀ m ∈ repo.modules,
      processModule repo { cfg with skippedPaths := s :: cfg.skippedPaths } m
        = processModule repo cfg m := by
    intro m hm
    have hskip : isSkippedDir { cfg with skippedPaths := s :: cfg.skippedPaths } m.dir
        = isSkippedDir cfg m.dir := isSkippedDir_cons_ne (h m hm)
    cases hs : isSkippedDir cfg m.dir
    · rw [processModule_not_skipped repo { cfg with skippedPaths := s :: cfg.skippedPaths }
        m (hskip.trans hs), processModule_not_skipped repo cfg m hs,
        mergeReplaces_skip_missing repo cfg s h m m.modFile.replaces]
    · rw [processModule_skipped (hskip.trans hs), processModule_skipped hs]
  unfold Crosslink
  cases hr : repo.hasRootManifest
  · rw [if_neg Bool.false_ne_true, if_neg Bool.false_ne_true]
  · rw [if_pos rfl, if_pos rfl]
    have hrw : rewriteRepo repo { cfg with skippedPaths := s :: cfg.skippedPaths }
        = rewriteRepo repo cfg := by
      unfold rewriteRepo
      have hmap : repo.modules.map (fun m => ({ m with modFile := (processModule repo
            { cfg with skippedPaths := s :: cfg.skippedPaths } m) } : ModuleInfo))
          = repo.modules.map (fun m => ({ m with modFile := processModule repo cfg m }
              : ModuleInfo)) :=
        List.map_congr_left (fun m hm => by rw [hproc m hm])
      rw [hmap]
    rw [hrw]

/-- C10 witness: in the testSkip repository, skipping a manifest path that
exists nowhere on disk leaves the run's outcome unchanged. -/
theorem skip_nonexistent_no_effect_witness :
    Crosslink repoSkip { cfgPrune with skippedPaths := "non-existent/go.mod"
      :: cfgPrune.skippedPaths } = Crosslink repoSkip cfgPrune :=
  skip_nonexistent_no_effect repoSkip cfgPrune "non-existent/go.mod" (by decide)

end Crosslink

